import Mathlib

/-!
Verification of the batch ETL script `main.py` of the repository
`Supabase_as_vector_store`.

The script is a linear pipeline: load a JSON file, and for each record
extract a text summary (`extract_text_content`), request an embedding from
an external API (`generate_embedding`), build a metadata mapping
(`create_metadata`), and insert the triple into an external store
(`process_and_insert_documents`), accumulating success/failure counts.

Shallow embedding choices:
* JSON values are the inductive `Json`; number literals are modelled as
  integers (the claims under study only compare numbers by order and never
  do float arithmetic).
* A Python dict is an association list `JObj` (first match wins, which
  agrees with dict semantics on duplicate-free key lists; real dicts never
  have duplicate keys).
* The two external calls (embedding API, store insert) are an oracle
  `World`: for each global record index the oracle says whether the call
  raises or what it returns.  The pipeline is instrumented to also return
  the list of external calls it makes and the number of batch iterations
  it runs, which are the observables the claims talk about.
-/

inductive Json where
  | null : Json
  | bool : Bool → Json
  | num : Int → Json
  | str : String → Json
  | arr : List Json → Json
  | obj : List (String × Json) → Json

/-- A Python dict holding JSON values, as an association list. -/
abbrev JObj := List (String × Json)

/-- Value stored under key `k`, if present: models `k in d` plus `d[k]`
(first matching entry; a real dict has unique keys). -/
def lookup (d : JObj) (k : String) : Option Json :=
  (d.find? (fun p => p.1 == k)).map (fun p => p.2)

/-- Models the Python membership test `k in d`. -/
def hasKey (d : JObj) (k : String) : Bool :=
  d.any (fun p => p.1 == k)

/-- Models `d.get(k)` (default `None`). -/
def dget (d : JObj) (k : String) : Json :=
  (lookup d k).getD Json.null

/-- Models `d.get(k, default)`. -/
def dgetD (d : JObj) (k : String) (default : Json) : Json :=
  (lookup d k).getD default

/-- Python truthiness of a JSON value (`if category_name:`). -/
def truthy : Json → Bool
  | Json.null => false
  | Json.bool b => b
  | Json.num n => n != 0
  | Json.str s => !s.isEmpty
  | Json.arr xs => !xs.isEmpty
  | Json.obj kvs => !kvs.isEmpty

mutual

/-- Python `repr` of a JSON value (quotes strings, used inside containers). -/
def pyRepr : Json → String
  | Json.null => "None"
  | Json.bool true => "True"
  | Json.bool false => "False"
  | Json.num n => toString n
  | Json.str s => "\x27" ++ s ++ "\x27"
  | Json.arr xs => "[" ++ String.intercalate ", " (pyReprList xs) ++ "]"
  | Json.obj kvs => "\x7b" ++ String.intercalate ", " (pyReprPairs kvs) ++ "\x7d"

/-- Helper for `pyRepr` over array elements. -/
def pyReprList : List Json → List String
  | [] => []
  | x :: xs => pyRepr x :: pyReprList xs

/-- Helper for `pyRepr` over object entries. -/
def pyReprPairs : List (String × Json) → List String
  | [] => []
  | (k, v) :: kvs => ("\x27" ++ k ++ "\x27: " ++ pyRepr v) :: pyReprPairs kvs

end

/-- Python `str` of a JSON value, as used by the f-strings in
`extract_text_content`: identical to `repr` except that a top-level
string is unquoted. -/
def pyStr (j : Json) : String :=
  match j with
  | Json.str s => s
  | _ => pyRepr j

/-- Fragment for the `title` field (main.py lines 27-28). -/
def fragTitle (json_doc : JObj) : Option String :=
  if hasKey json_doc "title" then
    some ("Product Title: " ++ pyStr (dget json_doc "title"))
  else none

/-- Fragment for the `description` field (main.py lines 30-31). -/
def fragDescription (json_doc : JObj) : Option String :=
  if hasKey json_doc "description" then
    some ("Description: " ++ pyStr (dget json_doc "description"))
  else none

/-- Fragment for the `price` field (main.py lines 33-34). -/
def fragPrice (json_doc : JObj) : Option String :=
  if hasKey json_doc "price" then
    some ("Price: $" ++ pyStr (dget json_doc "price"))
  else none

/-- Fragment for the category name (main.py lines 36-39): requires
`"category" in json_doc and isinstance(json_doc["category"], dict)`,
then reads `category.get("name", "")` and keeps the fragment only when
that value is truthy. -/
def fragCategory (json_doc : JObj) : Option String :=
  match lookup json_doc "category" with
  | some (Json.obj cat) =>
    let category_name := dgetD cat "name" (Json.str "")
    if truthy category_name then
      some ("Category: " ++ pyStr category_name)
    else none
  | _ => none

/-- The four conditional fragments of `extract_text_content`, in the
fixed order the source checks them. -/
def fragments (json_doc : JObj) : List (Option String) :=
  [fragTitle json_doc, fragDescription json_doc,
   fragPrice json_doc, fragCategory json_doc]

/-- Embeds `extract_text_content` (main.py lines 24-41): collect the
fragments of the present recognized fields in source order and join them
with single spaces. -/
def extract_text_content (json_doc : JObj) : String :=
  String.intercalate " " ((fragments json_doc).filterMap id)

/-- Embeds `create_metadata` (main.py lines 54-75): product-shape
metadata with verbatim copies (missing keys become null), the constant
`document_type` discriminator, and optional category/images blocks. -/
def create_metadata (json_doc : JObj) : JObj :=
  let metadata : JObj :=
    [("product_id", dget json_doc "id"),
     ("title", dget json_doc "title"),
     ("price", dget json_doc "price"),
     ("document_type", Json.str "product")]
  let metadata : JObj :=
    match lookup json_doc "category" with
    | some (Json.obj cat) =>
        metadata ++
          [("category", Json.obj
            [("id", dget cat "id"),
             ("name", dget cat "name"),
             ("image", dget cat "image")])]
    | _ => metadata
  match lookup json_doc "images" with
  | some (Json.arr images) =>
      metadata ++
        [("images", Json.arr images),
         ("image_count", Json.num (images.length : Int))]
  | _ => metadata

/-- An embedding vector (float entries modelled as integers; the pipeline
never computes with them, it only forwards them). -/
abbrev Emb := List Int

/-- Behaviour of the two external collaborators during one run.  Each is
indexed by the global record index (the pipeline makes at most one
embedding call and one insert call per record): the call either raises
(`Except.error`) or returns.  `insert`'s return value is `result.data`,
the list of rows the store reports back. -/
structure World where
  embed : Nat → String → Except Unit Emb
  insert : Nat → String → JObj → Emb → Except Unit (List JObj)

/-- One external call made by the pipeline, with the arguments the source
passes (main.py lines 132 and 137-144: the insert payload is the
extracted content, the built metadata, and the embedding). -/
inductive Call where
  | embedCall (idx : Nat) (text : String) : Call
  | insertCall (idx : Nat) (content : String) (metadata : JObj) (embedding : Emb) : Call

/-- Body of the per-record `try` block (main.py lines 127-164): extract,
embed, build metadata, insert; any raise from the two external calls is
caught by the `except` and the record is counted as a failure; an insert
that returns without rows is also a failure (lines 146-151).  Returns the
external calls made for this record and whether it was counted as a
successful insert. -/
def processOne (w : World) (idx : Nat) (doc : JObj) : List Call × Bool :=
  let text_content := extract_text_content doc
  match w.embed idx text_content with
  | Except.error _ => ([Call.embedCall idx text_content], false)
  | Except.ok embedding =>
    let metadata := create_metadata doc
    match w.insert idx text_content metadata embedding with
    | Except.error _ =>
        ([Call.embedCall idx text_content,
          Call.insertCall idx text_content metadata embedding], false)
    | Except.ok data =>
        ([Call.embedCall idx text_content,
          Call.insertCall idx text_content metadata embedding], !data.isEmpty)

/-- Inner loop (`for j, doc in enumerate(batch)`, main.py lines 123-164):
process the records of one batch in order, starting at global index `i`;
returns the calls made, the successful-insert count and the failed-insert
count contributed by the batch. -/
def processBatch (w : World) (i : Nat) : List JObj → List Call × Nat × Nat
  | [] => ([], 0, 0)
  | doc :: rest =>
    let r := processOne w i doc
    let rs := processBatch w (i + 1) rest
    (r.1 ++ rs.1,
     (if r.2 then rs.2.1 + 1 else rs.2.1),
     (if r.2 then rs.2.2 else rs.2.2 + 1))

/-- Outer loop (`for i in range(0, len(documents), batch_size)`, main.py
lines 119-164) with batch size `bs1 + 1` (the Python loop is only reached
with a positive step; step 0 raises and is handled in
`process_and_insert_documents` below).  Also counts the number of batch
iterations executed, which the source reports on line 121. -/
def processBatches (w : World) (bs1 : Nat) (i : Nat) (docs : List JObj) :
    List Call × Nat × Nat × Nat :=
  match docs with
  | [] => ([], 0, 0, 0)
  | doc :: rest =>
    let batch := (doc :: rest).take (bs1 + 1)
    let r := processBatch w i batch
    let rs := processBatches w bs1 (i + (bs1 + 1)) ((doc :: rest).drop (bs1 + 1))
    (r.1 ++ rs.1, rs.2.1 + 1, r.2.1 + rs.2.2.1, r.2.2 + rs.2.2.2)
termination_by docs.length
decreasing_by
  simp only [List.drop_succ_cons, List.length_drop, List.length_cons]
  omega

/-- Embeds `process_and_insert_documents` (main.py lines 105-172) from the
point where the destination-table check has run and the input file has
been parsed into `docs`.  When the table check fails the function returns
`(0, 0)` without touching a record (lines 109-111); `batch_size = 0`
makes Python's `range(0, n, 0)` raise `ValueError`, modelled as `none`.
The `some` result carries (calls made, batch iterations, successful
inserts, failed inserts); the source itself returns the final pair. -/
def process_and_insert_documents (w : World) (tableOk : Bool)
    (docs : List JObj) (batch_size : Nat) :
    Option (List Call × Nat × Nat × Nat) :=
  if tableOk = false then some ([], 0, 0, 0)
  else
    match batch_size with
    | 0 => none
    | bs1 + 1 => some (processBatches w bs1 0 docs)

/-! The listing-shape metadata builder.  The spec describes a second
dataset shape ("project-listing") whose Metadata Builder aggregates over a
nested list of unit records; src/main.py only contains the product-shape
`create_metadata`, so the aggregating builder is modelled from the spec
below. -/

/-- Modelled from the spec: the expected sub-keys of one entry of the
recognized nested aggregation list — "the set of distinct values of a
sub-key (\"unit_type\"), the set of distinct values of another sub-key
(\"bedrooms\"), and the numeric min/max across a third and fourth sub-key
(\"price_min\"/\"price_max\")".  An entry missing any expected sub-key
(or whose price bounds are not numbers) is malformed and yields `none`. -/
def unitEntry (u : Json) : Option (Json × Json × Int × Int) :=
  match u with
  | Json.obj o =>
    match lookup o "unit_type", lookup o "bedrooms",
          lookup o "price_min", lookup o "price_max" with
    | some t, some b, some (Json.num mn), some (Json.num mx) =>
        some (t, b, mn, mx)
    | _, _, _, _ => none
  | _ => none

/-- Parse every entry of the nested list; `none` as soon as one entry is
malformed (spec: "malformed nested entries ... are a fatal error for that
record ... since aggregation cannot proceed without them"). -/
def unitEntries : List Json → Option (List (Json × Json × Int × Int))
  | [] => some []
  | u :: us =>
    match unitEntry u, unitEntries us with
    | some e, some es => some (e :: es)
    | _, _ => none

mutual

/-- Structural equality of JSON values, backing the de-duplication of
aggregate values. -/
def jsonBeq : Json → Json → Bool
  | Json.null, Json.null => true
  | Json.bool a, Json.bool b => a == b
  | Json.num a, Json.num b => a == b
  | Json.str a, Json.str b => a == b
  | Json.arr a, Json.arr b => jsonBeqList a b
  | Json.obj a, Json.obj b => jsonBeqPairs a b
  | _, _ => false

def jsonBeqList : List Json → List Json → Bool
  | [], [] => true
  | x :: xs, y :: ys => jsonBeq x y && jsonBeqList xs ys
  | _, _ => false

def jsonBeqPairs : List (String × Json) → List (String × Json) → Bool
  | [], [] => true
  | (k, v) :: xs, (k2, v2) :: ys => k == k2 && jsonBeq v v2 && jsonBeqPairs xs ys
  | _, _ => false

end

/-- First-occurrence de-duplication, modelling "the set of distinct
values" of a sub-key. -/
def dedupJ (xs : List Json) : List Json :=
  xs.foldl (fun acc x => if acc.any (jsonBeq x) then acc else acc ++ [x]) []

/-- Minimum of a nonempty collection given as head plus tail. -/
def intMin (x : Int) (xs : List Int) : Int := xs.foldl min x

/-- Maximum of a nonempty collection given as head plus tail. -/
def intMax (x : Int) (xs : List Int) : Int := xs.foldl max x

/-- Modelled from the spec: the listing-shape Metadata Builder
(spec section 4.2), which src/ does not contain (src/main.py holds only
the product-shape `create_metadata`).  It adds the constant discriminator
and, "when a recognized nested list field is present", the derived
aggregates `unit_types`, `bedroom_types` and `price_range` with min over
`price_min` and max over `price_max`; "if the nested list is empty or
absent, these derived keys are omitted entirely"; a malformed nested
entry "is a fatal error for that record (propagated to the caller)",
modelled as `Except.error`.  The spec names neither the nested list key
nor the verbatim-copied top-level fields of this shape, so the list key
is written `units` and the copied fields are left out (no claim depends
on them). -/
def create_metadata_listing (d : JObj) : Except Unit JObj :=
  let base : JObj := [("document_type", Json.str "project")]
  match lookup d "units" with
  | some (Json.arr (u :: us)) =>
    match unitEntries (u :: us) with
    | none => Except.error ()
    | some [] => Except.error ()
    | some (e :: es) =>
      let pmin := intMin e.2.2.1 (es.map (fun x => x.2.2.1))
      let pmax := intMax e.2.2.2 (es.map (fun x => x.2.2.2))
      Except.ok (base ++
        [("unit_types", Json.arr (dedupJ ((e :: es).map (fun x => x.1)))),
         ("bedroom_types", Json.arr (dedupJ ((e :: es).map (fun x => x.2.1)))),
         ("price_range", Json.obj
           [("min", Json.num pmin), ("max", Json.num pmax)])])
  | _ => Except.ok base

/-- Reads the price-range object out of a metadata mapping, if present
and of the aggregated shape. -/
def priceRangeOf (md : JObj) : Option (Int × Int) :=
  match lookup md "price_range" with
  | some (Json.obj pr) =>
    match lookup pr "min", lookup pr "max" with
    | some (Json.num a), some (Json.num b) => some (a, b)
    | _, _ => none
  | _ => none

/-- Decides whether the nested aggregation list, when present, consists
of well-formed entries (spec: a well-formed SourceRecord). -/
def listingWellFormed (d : JObj) : Bool :=
  match lookup d "units" with
  | some (Json.arr l) => l.all (fun u => (unitEntry u).isSome)
  | _ => true

/-! Concrete fixtures used by the witness theorems. -/

/-- A world whose external calls always succeed: the embedding API
returns a vector and the store returns one inserted row. -/
def wOk : World where
  embed := fun _ _ => Except.ok [1]
  insert := fun _ _ _ _ => Except.ok [[("id", Json.num 1)]]

/-- A world whose insert completes without raising but reports no rows. -/
def wNoRows : World where
  embed := fun _ _ => Except.ok [1]
  insert := fun _ _ _ _ => Except.ok []

/-- A world whose embedding call raises on the first record and succeeds
afterwards, and whose inserts succeed. -/
def wEmbedFail0 : World where
  embed := fun i _ => if i = 0 then Except.error () else Except.ok [1]
  insert := fun _ _ _ _ => Except.ok [[("id", Json.num 1)]]

/-- The spec's example product record. -/
def dProductDemo : JObj :=
  [("title", Json.str "Chair"), ("description", Json.str "Oak"),
   ("price", Json.num 49)]

/-- A two-record input used by pipeline witnesses. -/
def docsDemo : List JObj := [dProductDemo, []]

/-- A listing-shape record with two well-formed unit entries. -/
def dListingDemo : JObj :=
  [("units", Json.arr
    [Json.obj [("unit_type", Json.str "1BR"), ("bedrooms", Json.num 1),
               ("price_min", Json.num 100), ("price_max", Json.num 200)],
     Json.obj [("unit_type", Json.str "2BR"), ("bedrooms", Json.num 2),
               ("price_min", Json.num 150), ("price_max", Json.num 300)]])]

/-- A listing-shape record whose single unit entry is missing the
`price_min` sub-key. -/
def dListingBad : JObj :=
  [("units", Json.arr
    [Json.obj [("unit_type", Json.str "1BR"), ("bedrooms", Json.num 1),
               ("price_max", Json.num 200)]])]

/-- The metadata the listing builder produces for `dListingDemo`. -/
def mdListingDemo : JObj :=
  [("document_type", Json.str "project"),
   ("unit_types", Json.arr [Json.str "1BR", Json.str "2BR"]),
   ("bedroom_types", Json.arr [Json.num 1, Json.num 2]),
   ("price_range", Json.obj [("min", Json.num 100), ("max", Json.num 300)])]

/-- Per-run successful-insert count, characterized record by record: a
record counts as a success exactly when its own processing says so. -/
def succCount (w : World) (docs : List JObj) : Nat :=
  (docs.enumFrom 0).countP (fun p => (processOne w p.1 p.2).2)

/-- Per-run failed-insert count, record by record. -/
def failCount (w : World) (docs : List JObj) : Nat :=
  (docs.enumFrom 0).countP (fun p => !(processOne w p.1 p.2).2)

/-- The full sequence of external calls of a run: the concatenation of
every record's own calls, in source order. -/
def pipelineTrace (w : World) (docs : List JObj) : List Call :=
  ((docs.enumFrom 0).map (fun p => (processOne w p.1 p.2).1)).flatten

/-! Association-list lemmas: dictionary lookups depend only on the
key-to-value mapping, not on the order in which the keys were stored. -/

lemma lookup_cons (p : String × Json) (ps : JObj) (k : String) :
    lookup (p :: ps) k = if p.1 == k then some p.2 else lookup ps k := by
  by_cases h : (p.1 == k) = true
  · simp [lookup, List.find?_cons_of_pos _ h, h]
  · simp [lookup, List.find?_cons_of_neg _ h, h]

lemma hasKey_cons (p : String × Json) (ps : JObj) (k : String) :
    hasKey (p :: ps) k = ((p.1 == k) || hasKey ps k) := by
  simp [hasKey]

lemma hasKey_eq_isSome (d : JObj) (k : String) :
    hasKey d k = (lookup d k).isSome := by
  induction d with
  | nil => rfl
  | cons p ps ih =>
    rw [hasKey_cons, lookup_cons]
    by_cases h : (p.1 == k) = true
    · simp [h]
    · simp [h, ih]

lemma lookup_eq_none_of_hasKey_false {d : JObj} {k : String}
    (h : hasKey d k = false) : lookup d k = none := by
  rw [hasKey_eq_isSome] at h
  cases hl : lookup d k with
  | none => rfl
  | some v => rw [hl] at h; simp at h

/-- On duplicate-free key lists (i.e. on real Python dicts), lookup is
invariant under reordering of the entries. -/
lemma lookup_perm {d d' : JObj} (hp : d.Perm d')
    (hn : (d.map Prod.fst).Nodup) (k : String) :
    lookup d k = lookup d' k := by
  induction hp with
  | nil => rfl
  | cons x p ih =>
    rw [List.map_cons, List.nodup_cons] at hn
    rw [lookup_cons, lookup_cons, ih hn.2]
  | swap x y l =>
    rw [List.map_cons, List.map_cons, List.nodup_cons, List.nodup_cons] at hn
    have hxy : y.1 ≠ x.1 := by
      intro h
      exact hn.1 (h ▸ List.mem_cons_self _ _)
    rw [lookup_cons, lookup_cons, lookup_cons, lookup_cons]
    by_cases h1 : (y.1 == k) = true
    · have h2 : (x.1 == k) = false := by
        rcases Bool.eq_false_or_eq_true (x.1 == k) with h | h
        · exact absurd ((eq_of_beq h1).trans (eq_of_beq h).symm) hxy
        · exact h
      simp [h1, h2]
    · simp [h1]
  | trans p1 p2 ih1 ih2 =>
    have hn2 := ((p1.map Prod.fst).nodup_iff).mp hn
    rw [ih1 hn, ih2 hn2]

/-- The fragment list only inspects the record through `lookup`, so it is
invariant under reordering of a duplicate-free record. -/
lemma fragments_perm {d d' : JObj} (hp : d.Perm d')
    (hn : (d.map Prod.fst).Nodup) : fragments d = fragments d' := by
  have L : ∀ k, lookup d k = lookup d' k := fun k => lookup_perm hp hn k
  simp only [fragments, fragTitle, fragDescription, fragPrice, fragCategory,
    hasKey_eq_isSome, dget, dgetD, L]

/-- A record with none of the four recognized fields produces no
fragments at all. -/
lemma extract_of_no_fields {d : JObj}
    (ht : hasKey d "title" = false)
    (hd : hasKey d "description" = false)
    (hp : hasKey d "price" = false)
    (hc : hasKey d "category" = false) :
    extract_text_content d = "" := by
  have hc2 := lookup_eq_none_of_hasKey_false hc
  simp [extract_text_content, fragments, fragTitle, fragDescription,
    fragPrice, fragCategory, ht, hd, hp, hc2]
  rfl

/-- C7: the Metadata of every input record carries the constant
`document_type` discriminator with value `"product"`. -/
theorem claim7_document_type_constant (d : JObj) :
    lookup (create_metadata d) "document_type" = some (Json.str "product") := by
  unfold create_metadata
  split <;> split <;> rfl

/-- C9: for every record with none of the recognized fields (`title`,
`description`, `price`, `category`), the extracted TextSummary is the
empty string (and `extract_text_content` is by construction total, with
a string result for every record). -/
theorem claim9_empty_when_no_fields (d : JObj)
    (ht : hasKey d "title" = false)
    (hd : hasKey d "description" = false)
    (hp : hasKey d "price" = false)
    (hc : hasKey d "category" = false) :
    extract_text_content d = "" :=
  extract_of_no_fields ht hd hp hc

theorem claim9_witness :
    hasKey [("stock", Json.num 3)] "title" = false ∧
    extract_text_content [("stock", Json.num 3)] = "" :=
  ⟨rfl, claim9_empty_when_no_fields [("stock", Json.num 3)] rfl rfl rfl rfl⟩

/-- C8: the fragments of the TextSummary appear in the fixed priority
order title, description, price, category-name, joined by single spaces,
and the result is the same for any reordering of the record's
(duplicate-free) keys. -/
theorem claim8_fragment_order (d d' : JObj) (hperm : d.Perm d')
    (hnd : (d.map Prod.fst).Nodup) :
    extract_text_content d =
      String.intercalate " " (List.filterMap id
        [fragTitle d, fragDescription d, fragPrice d, fragCategory d]) ∧
    extract_text_content d = extract_text_content d' := by
  constructor
  · rfl
  · unfold extract_text_content
    rw [fragments_perm hperm hnd]

theorem claim8_witness :
    extract_text_content [("price", Json.num 49), ("title", Json.str "Chair")]
      = extract_text_content [("title", Json.str "Chair"), ("price", Json.num 49)] ∧
    extract_text_content [("price", Json.num 49), ("title", Json.str "Chair")]
      = "Product Title: Chair Price: $49" :=
  ⟨(claim8_fragment_order
      [("price", Json.num 49), ("title", Json.str "Chair")]
      [("title", Json.str "Chair"), ("price", Json.num 49)]
      (List.Perm.swap _ _ _) (by decide)).2, rfl⟩

/-! Pipeline lemmas: the run decomposes into one contribution per record,
and the outer loop visits the ceiling number of batches. -/

lemma countP_add_countP_not {α : Type} (p : α → Bool) (l : List α) :
    l.countP p + l.countP (fun a => !p a) = l.length := by
  induction l with
  | nil => simp
  | cons a l ih =>
    by_cases h : p a = true <;> simp [List.countP_cons, h] <;> omega

lemma processBatch_spec (w : World) (docs : List JObj) : ∀ i : Nat,
    processBatch w i docs =
      (((docs.enumFrom i).map (fun p => (processOne w p.1 p.2).1)).flatten,
       (docs.enumFrom i).countP (fun p => (processOne w p.1 p.2).2),
       (docs.enumFrom i).countP (fun p => !(processOne w p.1 p.2).2)) := by
  induction docs with
  | nil => intro i; rfl
  | cons d ds ih =>
    intro i
    cases h : (processOne w i d).2 <;>
      simp [processBatch, ih, List.enumFrom, List.countP_cons, h]

lemma ceil_div_step (n b : Nat) (h : 0 < n) :
    (n + b) / (b + 1) = (n - (b + 1) + b) / (b + 1) + 1 := by
  rcases Nat.lt_or_ge n (b + 1) with hlt | hge
  · have h1 : n - (b + 1) = 0 := by omega
    have h2 : n + b = (n - 1) + (b + 1) := by omega
    rw [h1, h2, Nat.add_div_right _ (Nat.succ_pos b),
        Nat.div_eq_of_lt (by omega), Nat.zero_add,
        Nat.div_eq_of_lt (by omega)]
  · have h2 : n + b = (n - (b + 1) + b) + (b + 1) := by omega
    rw [h2, Nat.add_div_right _ (Nat.succ_pos b)]

lemma enumFrom_split {α : Type} (i n : Nat) (l : List α) :
    List.enumFrom i l =
      List.enumFrom i (l.take n) ++ List.enumFrom (i + n) (l.drop n) := by
  by_cases h : l.length ≤ n
  · rw [List.drop_eq_nil_of_le h, List.take_of_length_le h]
    simp
  · push_neg at h
    conv_lhs => rw [← List.take_append_drop n l]
    rw [List.enumFrom_append, List.length_take, Nat.min_eq_left (le_of_lt h)]

lemma processBatches_spec (w : World) (bs1 : Nat) : ∀ (n : Nat)
    (docs : List JObj), docs.length ≤ n → ∀ i : Nat,
    processBatches w bs1 i docs =
      (((docs.enumFrom i).map (fun p => (processOne w p.1 p.2).1)).flatten,
       (docs.length + bs1) / (bs1 + 1),
       (docs.enumFrom i).countP (fun p => (processOne w p.1 p.2).2),
       (docs.enumFrom i).countP (fun p => !(processOne w p.1 p.2).2)) := by
  intro n
  induction n with
  | zero =>
    intro docs hlen i
    have h0 : docs = [] := List.eq_nil_of_length_eq_zero (Nat.le_zero.mp hlen)
    subst h0
    simp [processBatches, Nat.div_eq_of_lt (Nat.lt_succ_of_le le_rfl)]
  | succ n ih =>
    intro docs hlen i
    cases docs with
    | nil => simp [processBatches, Nat.div_eq_of_lt (Nat.lt_succ_of_le le_rfl)]
    | cons d ds =>
      have hrec := ih ((d :: ds).drop (bs1 + 1))
        (by rw [List.length_drop]; simp only [List.length_cons] at hlen ⊢; omega)
        (i + (bs1 + 1))
      have hlen2 : ((d :: ds).drop (bs1 + 1)).length = (d :: ds).length - (bs1 + 1) := by
        simp
      rw [processBatches, hrec, processBatch_spec]
      rw [enumFrom_split i (bs1 + 1) (d :: ds)]
      rw [List.map_append, List.flatten_append, List.countP_append,
          List.countP_append, hlen2,
          ceil_div_step (d :: ds).length bs1 (by simp)]

lemma mem_enumFrom_zero_get {α : Type} {l : List α} {p : Nat × α}
    (h : p ∈ l.enumFrom 0) : l.get? p.1 = some p.2 := by
  obtain ⟨pi, pa⟩ := p
  obtain ⟨m, hm⟩ := List.mem_iff_get?.mp h
  rw [List.get?_enumFrom] at hm
  cases hg : l.get? m with
  | none => rw [hg] at hm; simp at hm
  | some a =>
    rw [hg] at hm
    simp only [Option.map_some', Option.some.injEq, Prod.mk.injEq,
      Nat.zero_add] at hm
    obtain ⟨h1, h2⟩ := hm
    subst h1
    subst h2
    exact hg

lemma get?_mem_enumFrom_zero {α : Type} {l : List α} {j : Nat} {a : α}
    (h : l.get? j = some a) : (j, a) ∈ l.enumFrom 0 := by
  apply List.mem_iff_get?.mpr
  refine ⟨j, ?_⟩
  rw [List.get?_enumFrom, h]
  simp

/-- The first external call of every record's processing is the embedding
request with that record's extracted text. -/
lemma processOne_embed_mem (w : World) (i : Nat) (d : JObj) :
    Call.embedCall i (extract_text_content d) ∈ (processOne w i d).1 := by
  cases h : w.embed i (extract_text_content d) with
  | error e => simp [processOne, h]
  | ok emb =>
    cases h2 : w.insert i (extract_text_content d) (create_metadata d) emb <;>
      simp [processOne, h, h2]

/-- Inversion: an insert call in a record's processing carries that
record's extracted content, its built metadata, and an embedding the
embedding call returned successfully. -/
lemma processOne_insert_inv (w : World) (i : Nat) (d : JObj) (j : Nat)
    (ct : String) (md : JObj) (e : Emb)
    (h : Call.insertCall j ct md e ∈ (processOne w i d).1) :
    j = i ∧ ct = extract_text_content d ∧ md = create_metadata d ∧
      w.embed i (extract_text_content d) = Except.ok e := by
  cases hemb : w.embed i (extract_text_content d) with
  | error err =>
    simp [processOne, hemb] at h
  | ok emb =>
    simp only [processOne, hemb] at h
    cases hins : w.insert i (extract_text_content d) (create_metadata d) emb with
    | error err =>
      simp [hins] at h
      obtain ⟨rfl, rfl, rfl, rfl⟩ := h
      exact ⟨rfl, rfl, rfl, rfl⟩
    | ok data =>
      simp [hins] at h
      obtain ⟨rfl, rfl, rfl, rfl⟩ := h
      exact ⟨rfl, rfl, rfl, rfl⟩

lemma pipeline_spec (w : World) (docs : List JObj) (bs1 : Nat) :
    process_and_insert_documents w true docs (bs1 + 1) =
      some (pipelineTrace w docs, (docs.length + bs1) / (bs1 + 1),
            succCount w docs, failCount w docs) := by
  simp only [process_and_insert_documents]
  rw [if_neg (by simp)]
  rw [processBatches_spec w bs1 docs.length docs le_rfl 0]
  rfl

/-- C3: for N input records and any positive batch size B (table check
passed, file loaded), the pipeline runs exactly ceil(N/B) = (N+B-1)/B
batch iterations and returns counts whose sum is N: every record is
counted exactly once. -/
theorem claim3_batch_count_and_totals (w : World) (docs : List JObj)
    (B : Nat) (hB : 0 < B) :
    process_and_insert_documents w true docs B =
      some (pipelineTrace w docs, (docs.length + B - 1) / B,
            succCount w docs, failCount w docs) ∧
    succCount w docs + failCount w docs = docs.length := by
  cases B with
  | zero => exact absurd hB (lt_irrefl 0)
  | succ bs1 =>
    constructor
    · have h := pipeline_spec w docs bs1
      have harith : docs.length + (bs1 + 1) - 1 = docs.length + bs1 := by omega
      rw [harith]
      exact h
    · simp only [succCount, failCount]
      rw [countP_add_countP_not, List.enumFrom_length]

theorem claim3_witness :
    0 < 1 ∧
    (process_and_insert_documents wOk true docsDemo 1 =
      some (pipelineTrace wOk docsDemo, 2,
            succCount wOk docsDemo, failCount wOk docsDemo) ∧
    succCount wOk docsDemo + failCount wOk docsDemo = 2) :=
  ⟨by decide, claim3_batch_count_and_totals wOk docsDemo 1 (by decide)⟩

/-- C4: every per-record exception is caught at the record boundary (the
run still returns normally), each record whose own processing fails
contributes exactly 1 to the failure count, and the run's call trace is
the concatenation of every record's own calls — in particular every
record, including those after a failing one, is still processed. -/
theorem claim4_per_record_isolation (w : World) (docs : List JObj)
    (B : Nat) (hB : 0 < B) :
    ∀ tr nb s f,
      process_and_insert_documents w true docs B = some (tr, nb, s, f) →
      f = (docs.enumFrom 0).countP (fun p => !(processOne w p.1 p.2).2) ∧
      tr = ((docs.enumFrom 0).map (fun p => (processOne w p.1 p.2).1)).flatten ∧
      ∀ p ∈ docs.enumFrom 0,
        Call.embedCall p.1 (extract_text_content p.2) ∈ tr := by
  cases B with
  | zero => exact absurd hB (lt_irrefl 0)
  | succ bs1 =>
    intro tr nb s f h
    rw [pipeline_spec w docs bs1] at h
    injection h with h2
    simp only [Prod.mk.injEq] at h2
    obtain ⟨htr, hnb, hs, hf⟩ := h2
    subst htr
    subst hf
    refine ⟨rfl, rfl, ?_⟩
    intro p hp
    exact List.mem_flatten.mpr
      ⟨(processOne w p.1 p.2).1, List.mem_map_of_mem _ hp,
       processOne_embed_mem w p.1 p.2⟩

theorem claim4_witness :
    failCount wEmbedFail0 docsDemo = 1 ∧
    Call.embedCall 1 "" ∈ pipelineTrace wEmbedFail0 docsDemo := by
  have happ := claim4_per_record_isolation wEmbedFail0 docsDemo 1 (by decide)
    (pipelineTrace wEmbedFail0 docsDemo) ((docsDemo.length + 0) / (0 + 1))
    (succCount wEmbedFail0 docsDemo) (failCount wEmbedFail0 docsDemo)
    (pipeline_spec wEmbedFail0 docsDemo 0)
  refine ⟨happ.1.trans rfl, ?_⟩
  exact happ.2.2 (1, ([] : JObj)) (List.Mem.tail _ (List.Mem.head _))

/-- C5: a record whose insert call returns without raising but with no
row data is counted as a failed insert (not a success) without raising,
and a record whose insert raises is likewise counted as a failure via
the per-record handler. -/
theorem claim5_no_rows_is_failure (w : World) (i : Nat) (d : JObj)
    (emb : Emb)
    (hemb : w.embed i (extract_text_content d) = Except.ok emb) :
    (w.insert i (extract_text_content d) (create_metadata d) emb =
        Except.ok [] → (processOne w i d).2 = false) ∧
    (∀ e, w.insert i (extract_text_content d) (create_metadata d) emb =
        Except.error e → (processOne w i d).2 = false) := by
  constructor
  · intro hins
    simp [processOne, hemb, hins]
  · intro e hins
    simp [processOne, hemb, hins]

theorem claim5_witness :
    wNoRows.embed 0 (extract_text_content []) = Except.ok [1] ∧
    (processOne wNoRows 0 []).2 = false :=
  ⟨rfl, (claim5_no_rows_is_failure wNoRows 0 [] [1] rfl).1 rfl⟩

/-- C6: an insert call only ever happens for a record whose embedding
call returned successfully, and its payload is exactly that record's
extracted content, its built metadata and the returned embedding — no
partial or empty-vector row can reach the store. -/
theorem claim6_insert_only_after_embed (w : World) (docs : List JObj)
    (B : Nat) (hB : 0 < B) :
    ∀ tr nb s f,
      process_and_insert_documents w true docs B = some (tr, nb, s, f) →
      ∀ j ct md e, Call.insertCall j ct md e ∈ tr →
        w.embed j ct = Except.ok e ∧
        ∀ d, docs.get? j = some d →
          ct = extract_text_content d ∧ md = create_metadata d := by
  cases B with
  | zero => exact absurd hB (lt_irrefl 0)
  | succ bs1 =>
    intro tr nb s f h j ct md e hmem
    rw [pipeline_spec w docs bs1] at h
    injection h with h2
    simp only [Prod.mk.injEq] at h2
    obtain ⟨htr, hnb, hs, hf⟩ := h2
    subst htr
    obtain ⟨l, hl, hml⟩ := List.mem_flatten.mp hmem
    obtain ⟨p, hp, rfl⟩ := List.mem_map.mp hl
    obtain ⟨rfl, hct, hmd, hembed⟩ :=
      processOne_insert_inv w p.1 p.2 j ct md e hml
    constructor
    · rw [hct]
      exact hembed
    · intro d hd
      have hg := mem_enumFrom_zero_get hp
      rw [hg] at hd
      injection hd with hd2
      subst hd2
      exact ⟨hct, hmd⟩

theorem claim6_witness :
    wOk.embed 0 "Product Title: Chair Description: Oak Price: $49" =
      Except.ok [1] ∧
    ("Product Title: Chair Description: Oak Price: $49" =
        extract_text_content dProductDemo ∧
      [("product_id", Json.null), ("title", Json.str "Chair"),
       ("price", Json.num 49), ("document_type", Json.str "product")] =
        create_metadata dProductDemo) := by
  have happ := claim6_insert_only_after_embed wOk docsDemo 1 (by decide)
    (pipelineTrace wOk docsDemo) ((docsDemo.length + 0) / (0 + 1))
    (succCount wOk docsDemo) (failCount wOk docsDemo)
    (pipeline_spec wOk docsDemo 0)
    0 "Product Title: Chair Description: Oak Price: $49"
    [("product_id", Json.null), ("title", Json.str "Chair"),
     ("price", Json.num 49), ("document_type", Json.str "product")] [1]
    (List.Mem.tail _ (List.Mem.head _))
  exact ⟨happ.1, happ.2 dProductDemo rfl⟩

/-- C10: the pipeline performs no non-empty-text check between
extraction and embedding: a record with none of the recognized fields
reaches the embedding call with the empty string as its text argument. -/
theorem claim10_empty_text_reaches_embedding (w : World)
    (docs : List JObj) (B j : Nat) (d : JObj) (hB : 0 < B)
    (hj : docs.get? j = some d)
    (ht : hasKey d "title" = false)
    (hd : hasKey d "description" = false)
    (hp : hasKey d "price" = false)
    (hc : hasKey d "category" = false) :
    ∀ tr nb s f,
      process_and_insert_documents w true docs B = some (tr, nb, s, f) →
      Call.embedCall j "" ∈ tr := by
  cases B with
  | zero => exact absurd hB (lt_irrefl 0)
  | succ bs1 =>
    intro tr nb s f h
    rw [pipeline_spec w docs bs1] at h
    injection h with h2
    simp only [Prod.mk.injEq] at h2
    obtain ⟨htr, hnb, hs, hf⟩ := h2
    subst htr
    have hmem : (j, d) ∈ docs.enumFrom 0 := get?_mem_enumFrom_zero hj
    have h3 := processOne_embed_mem w j d
    rw [extract_of_no_fields ht hd hp hc] at h3
    exact List.mem_flatten.mpr
      ⟨(processOne w j d).1, List.mem_map_of_mem _ hmem, h3⟩

theorem claim10_witness :
    Call.embedCall 0 "" ∈ pipelineTrace wOk [([] : JObj)] :=
  claim10_empty_text_reaches_embedding wOk [([] : JObj)] 1 0 []
    (by decide) rfl rfl rfl rfl rfl
    (pipelineTrace wOk [([] : JObj)]) ((1 + 0) / (0 + 1))
    (succCount wOk [([] : JObj)]) (failCount wOk [([] : JObj)])
    (pipeline_spec wOk [([] : JObj)] 0)

/-! Lemmas for the listing-shape aggregation (C1/C2). -/

lemma foldl_min_le_init (xs : List Int) : ∀ a : Int, xs.foldl min a ≤ a := by
  induction xs with
  | nil => intro a; exact le_refl a
  | cons x xs ih => intro a; exact le_trans (ih (min a x)) (min_le_left a x)

lemma foldl_min_le_mem {y : Int} : ∀ {xs : List Int}, y ∈ xs →
    ∀ a : Int, xs.foldl min a ≤ y := by
  intro xs
  induction xs with
  | nil => intro h; cases h
  | cons x xs ih =>
    intro h a
    rcases List.mem_cons.mp h with rfl | h2
    · exact le_trans (foldl_min_le_init xs (min a y)) (min_le_right a y)
    · exact ih h2 (min a x)

lemma le_foldl_max_init (xs : List Int) : ∀ a : Int, a ≤ xs.foldl max a := by
  induction xs with
  | nil => intro a; exact le_refl a
  | cons x xs ih => intro a; exact le_trans (le_max_left a x) (ih (max a x))

lemma le_foldl_max_mem {y : Int} : ∀ {xs : List Int}, y ∈ xs →
    ∀ a : Int, y ≤ xs.foldl max a := by
  intro xs
  induction xs with
  | nil => intro h; cases h
  | cons x xs ih =>
    intro h a
    rcases List.mem_cons.mp h with rfl | h2
    · exact le_trans (le_max_right a y) (le_foldl_max_init xs (max a y))
    · exact ih h2 (max a x)

lemma intMin_le_all {A : Type} (f : A → Int) (e : A) (es : List A) :
    ∀ x ∈ e :: es, intMin (f e) (es.map f) ≤ f x := by
  intro x hx
  rcases List.mem_cons.mp hx with rfl | hx2
  · exact foldl_min_le_init _ _
  · exact foldl_min_le_mem (List.mem_map_of_mem f hx2) _

lemma le_intMax_all {A : Type} (f : A → Int) (e : A) (es : List A) :
    ∀ x ∈ e :: es, f x ≤ intMax (f e) (es.map f) := by
  intro x hx
  rcases List.mem_cons.mp hx with rfl | hx2
  · exact le_foldl_max_init _ _
  · exact le_foldl_max_mem (List.mem_map_of_mem f hx2) _

lemma unitEntries_mem : ∀ {l : List Json} {es : List (Json × Json × Int × Int)},
    unitEntries l = some es → ∀ {u : Json}, u ∈ l →
    ∀ {e : Json × Json × Int × Int}, unitEntry u = some e → e ∈ es := by
  intro l
  induction l with
  | nil =>
    intro es h u hu
    cases hu
  | cons u0 us ih =>
    intro es h u hu e hue
    cases h0 : unitEntry u0 with
    | none => rw [unitEntries, h0] at h; simp at h
    | some e0 =>
      cases h1 : unitEntries us with
      | none => rw [unitEntries, h0, h1] at h; simp at h
      | some es0 =>
        rw [unitEntries, h0, h1] at h
        simp only [Option.some.injEq] at h
        subst h
        rcases List.mem_cons.mp hu with rfl | hu2
        · rw [h0] at hue
          injection hue with hue2
          subst hue2
          exact List.mem_cons_self _ _
        · exact List.mem_cons_of_mem _ (ih h1 hu2 hue)

lemma unitEntries_of_all_some : ∀ {l : List Json},
    (∀ u ∈ l, (unitEntry u).isSome = true) → ∃ es, unitEntries l = some es := by
  intro l
  induction l with
  | nil => intro h; exact ⟨[], rfl⟩
  | cons u0 us ih =>
    intro h
    obtain ⟨e0, h0⟩ := Option.isSome_iff_exists.mp (h u0 (List.mem_cons_self _ _))
    obtain ⟨es0, h1⟩ := ih (fun u hu => h u (List.mem_cons_of_mem _ hu))
    exact ⟨e0 :: es0, by rw [unitEntries, h0, h1]⟩

lemma unitEntries_none_of_all_false : ∀ {l : List Json},
    l.all (fun u => (unitEntry u).isSome) = false → unitEntries l = none := by
  intro l
  induction l with
  | nil => intro h; simp at h
  | cons u0 us ih =>
    intro h
    rw [List.all_cons, Bool.and_eq_false_iff] at h
    rcases h with h | h
    · have h0 : unitEntry u0 = none := by
        cases h0 : unitEntry u0 with
        | none => rfl
        | some e => rw [h0] at h; simp at h
      rw [unitEntries, h0]
    · rw [unitEntries, ih h]
      cases unitEntry u0 <;> rfl

/-- C1 (spec-modelled): when the recognized nested aggregation list is
present and non-empty and the listing builder returns a Metadata, that
Metadata carries a `price_range` object whose min is ≤ every entry's
`price_min` and whose max is ≥ every entry's `price_max`; when the list
is absent or empty, none of `price_range`, `unit_types`, `bedroom_types`
appears in the Metadata. -/
theorem claim1_price_range_bounds (d : JObj) :
    (∀ l, lookup d "units" = some (Json.arr l) → l ≠ [] →
      ∀ md, create_metadata_listing d = Except.ok md →
        (priceRangeOf md).isSome = true ∧
        ∀ u ∈ l, ∀ t b mn mx, unitEntry u = some (t, b, mn, mx) →
          ∀ pr, priceRangeOf md = some pr → pr.1 ≤ mn ∧ mx ≤ pr.2) ∧
    ((lookup d "units" = none ∨ lookup d "units" = some (Json.arr [])) →
      ∀ md, create_metadata_listing d = Except.ok md →
        lookup md "price_range" = none ∧ lookup md "unit_types" = none ∧
        lookup md "bedroom_types" = none) := by
  constructor
  · intro l hl hne md hmd
    cases l with
    | nil => exact absurd rfl hne
    | cons u us =>
      simp only [create_metadata_listing, hl] at hmd
      cases hes : unitEntries (u :: us) with
      | none => rw [hes] at hmd; simp at hmd
      | some es =>
        rw [hes] at hmd
        cases es with
        | nil => simp at hmd
        | cons e es2 =>
          simp only [Except.ok.injEq] at hmd
          subst hmd
          refine ⟨rfl, ?_⟩
          intro u2 hu2 t b mn mx hue pr hpr
          have hprv : pr = (intMin e.2.2.1 (es2.map (fun x => x.2.2.1)),
              intMax e.2.2.2 (es2.map (fun x => x.2.2.2))) := by
            have : priceRangeOf
                ([("document_type", Json.str "project")] ++
                  [("unit_types", Json.arr (dedupJ ((e :: es2).map (fun x => x.1)))),
                   ("bedroom_types", Json.arr (dedupJ ((e :: es2).map (fun x => x.2.1)))),
                   ("price_range", Json.obj
                     [("min", Json.num (intMin e.2.2.1 (es2.map (fun x => x.2.2.1)))),
                      ("max", Json.num (intMax e.2.2.2 (es2.map (fun x => x.2.2.2))))])]) =
                some (intMin e.2.2.1 (es2.map (fun x => x.2.2.1)),
                      intMax e.2.2.2 (es2.map (fun x => x.2.2.2))) := rfl
            rw [this] at hpr
            injection hpr with h2
            exact h2.symm
          subst hprv
          have hmem : (t, b, mn, mx) ∈ e :: es2 := unitEntries_mem hes hu2 hue
          exact ⟨intMin_le_all (fun x => x.2.2.1) e es2 _ hmem,
                 le_intMax_all (fun x => x.2.2.2) e es2 _ hmem⟩
  · intro hdisj md hmd
    rcases hdisj with h | h
    · simp only [create_metadata_listing, h, Except.ok.injEq] at hmd
      subst hmd
      exact ⟨rfl, rfl, rfl⟩
    · simp only [create_metadata_listing, h, Except.ok.injEq] at hmd
      subst hmd
      exact ⟨rfl, rfl, rfl⟩

theorem claim1_witness :
    create_metadata_listing dListingDemo = Except.ok mdListingDemo ∧
    (priceRangeOf mdListingDemo).isSome = true ∧
    ((100 : Int) ≤ 100 ∧ (200 : Int) ≤ 300) := by
  have happ := (claim1_price_range_bounds dListingDemo).1
    [Json.obj [("unit_type", Json.str "1BR"), ("bedrooms", Json.num 1),
               ("price_min", Json.num 100), ("price_max", Json.num 200)],
     Json.obj [("unit_type", Json.str "2BR"), ("bedrooms", Json.num 2),
               ("price_min", Json.num 150), ("price_max", Json.num 300)]]
    rfl (List.cons_ne_nil _ _) mdListingDemo rfl
  refine ⟨rfl, happ.1, ?_⟩
  exact happ.2
    (Json.obj [("unit_type", Json.str "1BR"), ("bedrooms", Json.num 1),
               ("price_min", Json.num 100), ("price_max", Json.num 200)])
    (List.Mem.head _)
    (Json.str "1BR") (Json.num 1) 100 200 rfl (100, 300) rfl

/-- C2 (spec-modelled): the listing builder never errors on a well-formed
SourceRecord, and it errors — rather than returning a Metadata mapping —
on every record whose nested aggregation list contains a malformed entry
(one missing an expected sub-key). -/
theorem claim2_listing_builder_totality (d : JObj) :
    (listingWellFormed d = true →
      Except.isOk (create_metadata_listing d) = true) ∧
    (listingWellFormed d = false →
      create_metadata_listing d = Except.error ()) := by
  constructor
  · intro hwf
    unfold listingWellFormed at hwf
    cases hu : lookup d "units" with
    | none => simp [create_metadata_listing, hu, Except.isOk, Except.toBool]
    | some j =>
      rw [hu] at hwf
      cases j with
      | arr l =>
        cases l with
        | nil => simp [create_metadata_listing, hu, Except.isOk, Except.toBool]
        | cons u us =>
          simp only [List.all_eq_true] at hwf
          obtain ⟨es, hes⟩ := unitEntries_of_all_some hwf
          cases es with
          | nil =>
            rw [unitEntries] at hes
            cases h0 : unitEntry u <;> rw [h0] at hes <;>
              cases h1 : unitEntries us <;> rw [h1] at hes <;> simp at hes
          | cons e es2 =>
            simp [create_metadata_listing, hu, hes, Except.isOk, Except.toBool]
      | null => simp [create_metadata_listing, hu, Except.isOk, Except.toBool]
      | bool b => simp [create_metadata_listing, hu, Except.isOk, Except.toBool]
      | num n => simp [create_metadata_listing, hu, Except.isOk, Except.toBool]
      | str s => simp [create_metadata_listing, hu, Except.isOk, Except.toBool]
      | obj o => simp [create_metadata_listing, hu, Except.isOk, Except.toBool]
  · intro hwf
    unfold listingWellFormed at hwf
    cases hu : lookup d "units" with
    | none => rw [hu] at hwf; simp at hwf
    | some j =>
      rw [hu] at hwf
      cases j with
      | arr l =>
        have hnone := unitEntries_none_of_all_false hwf
        cases l with
        | nil => rw [unitEntries] at hnone; simp at hnone
        | cons u us => simp [create_metadata_listing, hu, hnone]
      | null => simp at hwf
      | bool b => simp at hwf
      | num n => simp at hwf
      | str s => simp at hwf
      | obj o => simp at hwf

theorem claim2_witness :
    Except.isOk (create_metadata_listing dListingDemo) = true ∧
    create_metadata_listing dListingBad = Except.error () :=
  ⟨(claim2_listing_builder_totality dListingDemo).1 rfl,
   (claim2_listing_builder_totality dListingBad).2 rfl⟩
